import Mathlib

/-!
Verification development for the shoebill markup-to-job-submission translator
(src/parse.py).  Python strings are modelled as lists of characters; every
Python string primitive the source uses (`split`, `strip`, `startswith`,
`replace`, whitespace `split()`) is given its own executable model below, and
the parser, comment extractor, file loader and command-line entry point are
shallowly embedded on top of them.
-/

/-- Python strings are modelled as lists of characters. -/
abbrev Str := List Char

/-- Python whitespace for `str.strip()` / `str.split()` (ASCII fragment:
space, tab, newline, carriage return, vertical tab, form feed). -/
def pyIsSpace (c : Char) : Bool :=
  (c == ' ') || (c == '\t') || (c == '\n') || (c == '\r') || (c == '\x0b') || (c == '\x0c')

/-- Model of Python `text.split("\n")`: split on each newline character,
keeping empty segments (`"".split("\n") == [""]`). -/
def pySplit : Str → List Str
  | [] => [[]]
  | c :: rest =>
    if c = '\n' then [] :: pySplit rest
    else
      match pySplit rest with
      | [] => [[c]]
      | g :: gs => (c :: g) :: gs

/-- Model of Python `s.strip()`: remove leading and trailing whitespace. -/
def pyStrip (s : Str) : Str :=
  ((s.dropWhile pyIsSpace).reverse.dropWhile pyIsSpace).reverse

/-- Helper for `pyWords`: accumulate the current word (reversed) while
scanning. -/
def pyWordsAux : Str → Str → List Str
  | curr, [] => if curr = [] then [] else [curr.reverse]
  | curr, c :: cs =>
    if pyIsSpace c then
      if curr = [] then pyWordsAux [] cs else curr.reverse :: pyWordsAux [] cs
  else pyWordsAux (c :: curr) cs

/-- Model of Python `s.split()` (no argument): split on whitespace runs and
drop empty pieces. -/
def pyWords (s : Str) : List Str := pyWordsAux [] s

/-- Model of Python `sub in s`: substring containment. -/
def containsSub : Str → Str → Bool
  | s, sub =>
    match s with
    | [] => sub.isEmpty
    | _ :: cs => sub.isPrefixOf s || containsSub cs sub

/-- Number of start positions at which `p` occurs in `s` (occurrences may
overlap); used to state "contains ... exactly once". -/
def countOccur (p : Str) : Str → Nat
  | [] => 0
  | c :: cs => (if p.isPrefixOf (c :: cs) then 1 else 0) + countOccur p cs

/-- Fuel-based worker for `pyReplace`; with fuel at least the length of the
input it performs the left-to-right non-overlapping replacement that Python
`str.replace` performs for a non-empty pattern. -/
def replaceFuel (p r : Str) : Nat → Str → Str
  | _, [] => []
  | 0, s => s
  | fuel + 1, c :: cs =>
    if p.isPrefixOf (c :: cs) then r ++ replaceFuel p r fuel ((c :: cs).drop p.length)
    else c :: replaceFuel p r fuel cs

/-- Model of Python `s.replace(p, r)` for the non-empty patterns used by the
source (`SUBMIT_REPLACEMENTS` keys); an empty pattern, which Python treats
specially and the source never passes, is modelled as the identity. -/
def pyReplace (s p r : Str) : Str :=
  if p = [] then s else replaceFuel p r s.length s

/-- The parse result dictionary: an insertion-ordered association list with
unique keys, modelling the Python `dict` the parser builds. -/
abbrev Dict := List (Str × Str)

/-- Python `d[k]` lookup returning an option (`d.get(k)`). -/
def dictGet : Dict → Str → Option Str
  | [], _ => none
  | (k', v') :: rest, k => if k' = k then some v' else dictGet rest k

/-- Python `d[k] = v`: overwrite in place if the key is present, else append. -/
def dictSet : Dict → Str → Str → Dict
  | [], k, v => [(k, v)]
  | (k', v') :: rest, k, v =>
    if k' = k then (k, v) :: rest else (k', v') :: dictSet rest k v

/-- The exceptions the embedded code can raise: Python `IndexError` from
`line.split()[1]`, and `Exception(msg)` from the validation check. -/
inductive PyErr where
  | indexError : PyErr
  | exception : Str → PyErr
deriving DecidableEq

deriving instance DecidableEq for Except

/-- `PATTERN = "%HTCSS"` from src/parse.py. -/
def PATTERN : Str := "%HTCSS".data

/-- `ENDPATTERN = "%HTCSS END"` from src/parse.py. -/
def ENDPATTERN : Str := "%HTCSS END".data

/-- `SUBMIT_REPLACEMENTS` from src/parse.py, in dict insertion order. -/
def SUBMIT_REPLACEMENTS : List (Str × Str) :=
  [("RequestDisk".data, "request_disk".data),
   ("RequestMemory".data, "request_memory".data),
   ("RequestCpus".data, "request_cpus".data),
   ("TransferInputFiles".data, "transfer_input_files".data),
   ("TransferOutputFiles".data, "transfer_output_files".data)]

/-- The `"TEMPLATE"` section key. -/
def TEMPLATEkey : Str := "TEMPLATE".data

/-- The `"TABLE"` section key. -/
def TABLEkey : Str := "TABLE".data

/-- The `"EXEC"` section key. -/
def EXECkey : Str := "EXEC".data

/-- The literal `"container_image"` the parser searches the template for. -/
def CONTAINER_IMAGE : Str := "container_image".data

/-- The literal `"universe = container\n"` appended when a container image is
referenced. -/
def UNIVERSE_LINE : Str := "universe = container\n".data

/-- The literal `"\nqueue from TABLE _table.csv\n"` appended to every valid
template. -/
def QUEUE_LINE : Str := "\nqueue from TABLE _table.csv\n".data

/-- The validation error message of src/parse.py. -/
def MISSING_MSG : Str := "Missing template or table in submission file".data

/-- The scanning state of `parse_htcss_string`'s loop: the result dict,
whether a block is open, the open block's name (Python initialises it to
`None` and never reads it before the first assignment; we initialise with the
empty string), and the accumulated block lines. -/
structure ScanSt where
  result : Dict
  inBlock : Bool
  currentName : Str
  contents : List Str

/-- Committing a block: join the accumulated lines, strip, and store under
the current block name. -/
def commitBlock (st : ScanSt) : Dict :=
  dictSet st.result st.currentName (pyStrip st.contents.flatten)

/-- The scanning loop of `parse_htcss_string` (src/parse.py lines 37-51):
a `%HTCSS END` line commits the open block and breaks; a `%HTCSS` line
commits the open block (resetting the accumulator) and opens the block named
by the line's second whitespace-separated word (raising `IndexError` when
there is none); any other line is accumulated when a block is open.  After
the loop an open block is committed. -/
def scanLines : List Str → ScanSt → Except PyErr Dict
  | [], st => .ok (if st.inBlock then commitBlock st else st.result)
  | line :: rest, st =>
    if ENDPATTERN.isPrefixOf line then
      .ok (if st.inBlock then commitBlock st else st.result)
    else if PATTERN.isPrefixOf line then
      let st1 := if st.inBlock then { st with result := commitBlock st, contents := [] } else st
      match (pyWords line)[1]? with
      | none => .error .indexError
      | some name => scanLines rest { st1 with inBlock := true, currentName := name }
    else if st.inBlock then
      scanLines rest { st with contents := st.contents ++ [line] }
    else
      scanLines rest st

/-- The initial scan state (`result = {}`, `in_block = False`,
`block_contents = []`). -/
def initSt : ScanSt := ⟨[], false, [], []⟩

/-- The keyword-replacement loop of src/parse.py lines 60-61 viewed as a
string transformer: apply every `SUBMIT_REPLACEMENTS` entry, in order, as a
literal substring replacement. -/
def applyReplacements (t : Str) : Str :=
  SUBMIT_REPLACEMENTS.foldl (fun s kv => pyReplace s kv.1 kv.2) t

/-- Model of `parse_htcss_string` (src/parse.py lines 31-64): split the text
on newlines re-terminating each line, run the scanning loop, validate that
`TEMPLATE` and `TABLE` are present and non-empty (Python truthiness of
`result.get(k)`), append the container-universe line when `container_image`
occurs in the template, append the queue statement, and apply the keyword
replacements.  The `result["TEMPLATE"]` accesses after validation cannot
raise `KeyError` because validation ensured the key is present, so they are
modelled with a defaulted lookup. -/
def parse_htcss_string (text : Str) : Except PyErr Dict :=
  let lines := (pySplit text).map (fun i => i ++ ['\n'])
  match scanLines lines initSt with
  | .error e => .error e
  | .ok result =>
    if (dictGet result TEMPLATEkey).getD [] = [] ∨ (dictGet result TABLEkey).getD [] = [] then
      .error (.exception MISSING_MSG)
    else
      let r1 := if containsSub ((dictGet result TEMPLATEkey).getD []) CONTAINER_IMAGE then
          dictSet result TEMPLATEkey (((dictGet result TEMPLATEkey).getD []) ++ UNIVERSE_LINE)
        else result
      let r2 := dictSet r1 TEMPLATEkey (((dictGet r1 TEMPLATEkey).getD []) ++ QUEUE_LINE)
      let r3 := SUBMIT_REPLACEMENTS.foldl
        (fun r kv => dictSet r TEMPLATEkey (pyReplace ((dictGet r TEMPLATEkey).getD []) kv.1 kv.2))
        r2
      .ok r3

/-- Model of `read_comments` (src/parse.py lines 19-28).  The Python function
tokenizes the raw bytes with the standard-library tokenizer and concatenates
`line[1:]` for every `COMMENT` token whose physical line starts with `#`.
The tokenizer (external standard library) is modelled at line granularity:
for a script given as its physical lines (each including its terminating
newline) and containing no string literals spanning `#`-initial lines, the
comment tokens whose line starts with `#` are exactly the lines whose first
character is `#`, each contributing the line minus that leading `#`. -/
def read_comments (fileLines : List Str) : Str :=
  ((fileLines.filter (fun l => ("#".data).isPrefixOf l)).map (fun l => l.drop 1)).flatten

/-- Model of `parse_htcss_file` (src/parse.py lines 66-72): opening and
reading the file in text mode is modelled by supplying the file's full text
content; the function reads everything and delegates to
`parse_htcss_string`, exactly as the source does. -/
def parse_htcss_file (fileContents : Str) : Except PyErr Dict :=
  parse_htcss_string fileContents

/-- The literal `"executable = _exec.py\n"` the entry point appends to the
template when an `EXEC` section was materialised. -/
def EXEC_LINE : Str := "executable = _exec.py\n".data

/-- Observable effects of one run of the command-line entry point:
the contents written to `_table.csv` and `_exec.py` (if written), the final
submission-description text handed to the scheduler client, whether the
scheduler's submit endpoint was called, and whether `_table.csv` was removed
by cleanup. -/
structure CliRun where
  tableWritten : Option Str
  execWritten : Option Str
  description : Str
  submitCalled : Bool
  tableRemoved : Bool
deriving DecidableEq

/-- Model of `main` (src/parse.py lines 85-120).  The target file is given as
its physical lines; the `--executable` path feeds them to `read_comments`,
the default path joins them and uses `parse_htcss_file`.  `write_table` and
`write_executable` are modelled by recording the written contents; the
external scheduler client is modelled by recording the description text
(`htcondor.Submit(text)` printed in dry-run mode) and whether
`schedd.submit` was invoked; `os.remove("_table.csv")` is recorded as a
flag.  A raised exception propagates (non-zero exit). -/
def mainCli (fileLines : List Str) (executable cleanup dryrun : Bool) : Except PyErr CliRun :=
  let parsed := if executable then parse_htcss_string (read_comments fileLines)
    else parse_htcss_file fileLines.flatten
  match parsed with
  | .error e => .error e
  | .ok res =>
    let table := (dictGet res TABLEkey).getD []
    match dictGet res EXECkey with
    | some ex =>
      let tpl := ((dictGet res TEMPLATEkey).getD []) ++ EXEC_LINE
      .ok { tableWritten := some table, execWritten := some ex, description := tpl,
            submitCalled := !dryrun, tableRemoved := cleanup }
    | none =>
      let tpl := (dictGet res TEMPLATEkey).getD []
      .ok { tableWritten := some table, execWritten := none, description := tpl,
            submitCalled := !dryrun, tableRemoved := cleanup }

/-! ### Prefix and substring toolbox -/

/-- Bool-level prefix test coincides with the prefix relation. -/
lemma isPre_iff {p l : Str} : p.isPrefixOf l = true ↔ p <+: l :=
  List.isPrefixOf_iff_prefix

/-- Two prefixes of the same list are comparable. -/
lemma prefCompat {l₁ l₂ l₃ : Str} (h₁ : l₁ <+: l₃) (h₂ : l₂ <+: l₃) :
    l₁ <+: l₂ ∨ l₂ <+: l₁ :=
  List.prefix_or_prefix_of_prefix h₁ h₂

/-- A prefix of an append either stays in the left part or swallows it
whole. -/
lemma prefSplit {q A B : Str} :
    q <+: A ++ B ↔ q <+: A ∨ (A <+: q ∧ q.drop A.length <+: B) := by
  induction A generalizing q with
  | nil =>
    constructor
    · intro h
      exact Or.inr ⟨ List.nil_prefix, by simpa using h⟩
    · rintro (h | ⟨-, h⟩)
      · obtain rfl := List.prefix_nil.mp h
        exact List.nil_prefix
      · simpa using h
  | cons a A ih =>
    rcases q with _ | ⟨c, q⟩
    · simp [ List.nil_prefix]
    · rw [List.cons_append, List.cons_prefix_cons, ih, List.cons_prefix_cons,
        List.cons_prefix_cons]
      constructor
      · rintro ⟨rfl, h | ⟨h1, h2⟩⟩
        · exact Or.inl ⟨rfl, h⟩
        · exact Or.inr ⟨⟨rfl, h1⟩, by simpa using h2⟩
      · rintro (⟨rfl, h⟩ | ⟨⟨rfl, h1⟩, h2⟩)
        · exact ⟨rfl, Or.inl h⟩
        · exact ⟨rfl, Or.inr ⟨h1, by simpa using h2⟩⟩

/-- An infix of `a :: l` is a prefix of it or an infix of `l`. -/
lemma infCons {q : Str} {a : Char} {l : Str} :
    q <:+: a :: l ↔ q <+: a :: l ∨ q <:+: l := by
  constructor
  · rintro ⟨s, t, h⟩
    rcases s with _ | ⟨b, s⟩
    · exact Or.inl ⟨t, h⟩
    · rcases h with h
      simp only [List.cons_append, List.cons.injEq] at h
      exact Or.inr ⟨s, t, h.2⟩
  · rintro (⟨t, h⟩ | h)
    · exact ⟨[], t, h⟩
    · exact List.infix_cons h

/-- Decomposition of an infix occurrence in an append: it lies in the left
part, in the right part, or crosses the boundary with a non-trivial split. -/
lemma infApp {q A B : Str} (h : q <:+: A ++ B) :
    q <:+: A ∨ q <:+: B ∨
      ∃ k, 0 < k ∧ k < q.length ∧ q.take k <:+ A ∧ q.drop k <+: B := by
  induction A with
  | nil => exact Or.inr (Or.inl (by simpa using h))
  | cons a A ih =>
    rw [List.cons_append, infCons] at h
    rcases h with h | h
    · rcases q with _ | ⟨c, q⟩
      · exact Or.inl List.nil_infix
      · rw [List.cons_prefix_cons] at h
        obtain ⟨rfl, h⟩ := h
        rcases prefSplit.mp h with h | ⟨h1, h2⟩
        · exact Or.inl (List.cons_prefix_cons.mpr ⟨rfl, h⟩).isInfix
        · by_cases hlen : q.length ≤ A.length
          · left
            obtain rfl : A = q := h1.eq_of_length_le hlen
            exact List.infix_refl _
          · right; right
            refine ⟨A.length + 1, Nat.succ_pos _, by simpa using Nat.lt_of_not_le hlen, ?_, ?_⟩
            · have ht : (c :: q).take (A.length + 1) = c :: A := by
                have := List.prefix_iff_eq_take.mp h1
                simp [List.take_cons, ← this]
              rw [ht]
            · simpa using h2
    · rcases ih h with h | h | ⟨k, hk0, hkq, h1, h2⟩
      · exact Or.inl (List.infix_cons h)
      · exact Or.inr (Or.inl h)
      · exact Or.inr (Or.inr ⟨k, hk0, hkq, h1.trans (List.suffix_cons a A), h2⟩)

/-- Every infix occurrence is a prefix of some drop. -/
lemma infDropEx {q s : Str} (h : q <:+: s) : ∃ m, q <+: s.drop m := by
  obtain ⟨u, v, rfl⟩ := h
  exact ⟨u.length, by simpa [List.drop_left] using List.prefix_append q v⟩

/-- Dropping preserves the prefix relation. -/
lemma prefDrop {q s : Str} (n : Nat) (h : q <+: s) : q.drop n <+: s.drop n := by
  obtain ⟨t, rfl⟩ := h
  rw [List.drop_append_eq_append_drop]
  exact List.prefix_append _ _

/-- For a pattern not containing a newline, being a prefix of a line with a
newline appended is the same as being a prefix of the line. -/
lemma prefNl {p l : Str} (hnl : '\n' ∉ p) : p <+: l ++ ['\n'] ↔ p <+: l := by
  constructor
  · intro h
    rcases prefSplit.mp h with h | ⟨h1, h2⟩
    · exact h
    · have hsing : p.drop l.length = [] ∨ p.drop l.length = ['\n'] := by
        rcases hd : p.drop l.length with _ | ⟨a, u⟩
        · exact Or.inl rfl
        · rw [hd, List.cons_prefix_cons] at h2
          obtain ⟨rfl, h2⟩ := h2
          simp only [List.prefix_nil] at h2
          simp [h2]
      rcases hsing with hsing | hsing
      · obtain rfl : l = p :=
          h1.eq_of_length_le (by simpa [List.drop_eq_nil_iff] using hsing)
        exact List.prefix_refl _
      · exact absurd (List.drop_subset l.length p (by simp [hsing])) hnl
  · intro h
    exact h.trans (List.prefix_append l ['\n'])

/-! ### Unfolding equations for the replacement model -/

/-- The fuel used by `replaceFuel` is irrelevant once it covers the input
length (each step of a non-empty-pattern replacement consumes at least one
character). -/
lemma replaceFuel_congr {p r : Str} (hp : p ≠ []) :
    ∀ n m (s : Str), s.length ≤ n → s.length ≤ m →
      replaceFuel p r n s = replaceFuel p r m s := by
  intro n
  induction n with
  | zero =>
    intro m s hn _
    obtain rfl : s = [] := List.eq_nil_of_length_eq_zero (Nat.le_zero.mp hn)
    cases m <;> rfl
  | succ n ih =>
    intro m s hn hm
    rcases s with _ | ⟨c, cs⟩
    · cases m <;> rfl
    · rcases m with _ | m
      · exact absurd hm (by simp)
      · simp only [replaceFuel]
        rcases hpre : p.isPrefixOf (c :: cs)
        · simp only [Bool.false_eq_true, if_false]
          rw [ih _ _ (Nat.le_of_succ_le_succ hn) (Nat.le_of_succ_le_succ hm)]
        · have hlen : ((c :: cs).drop p.length).length ≤ cs.length := by
            have hp1 : 1 ≤ p.length := by
              rcases p with _ | _
              · exact absurd rfl hp
              · simp
            simp only [List.length_drop, List.length_cons]
            omega
          simp only [if_true]
          rw [ih _ _ (le_trans hlen (Nat.le_of_succ_le_succ hn))
            (le_trans hlen (Nat.le_of_succ_le_succ hm))]

/-- `pyReplace` on the empty string. -/
lemma pyReplace_nil {p r : Str} : pyReplace [] p r = [] := by
  unfold pyReplace
  split <;> rfl

/-- `pyReplace` when the pattern matches at the head: emit the replacement
and continue after the matched characters. -/
lemma pyReplace_pos {p r : Str} {c : Char} {cs : Str} (hp : p ≠ [])
    (h : p <+: c :: cs) :
    pyReplace (c :: cs) p r = r ++ pyReplace ((c :: cs).drop p.length) p r := by
  have hp1 : 1 ≤ p.length := by
    rcases p with _ | _
    · exact absurd rfl hp
    · simp
  unfold pyReplace
  simp only [hp, if_false]
  simp only [List.length_cons, replaceFuel, isPre_iff.mpr h, if_true]
  congr 1
  exact replaceFuel_congr hp _ _ _ (by simp; omega) (le_refl _)

/-- `pyReplace` when the pattern does not match at the head: keep the head
character and continue. -/
lemma pyReplace_neg {p r : Str} {c : Char} {cs : Str} (hp : p ≠ [])
    (h : ¬ p <+: c :: cs) :
    pyReplace (c :: cs) p r = c :: pyReplace cs p r := by
  unfold pyReplace
  simp only [hp, if_false]
  have hb : p.isPrefixOf (c :: cs) = false := by
    rcases hb : p.isPrefixOf (c :: cs)
    · rfl
    · exact absurd (isPre_iff.mp hb) h
  simp only [List.length_cons, replaceFuel, hb, Bool.false_eq_true, if_false]

/-- Auxiliary form of `replaceSplit` with an explicit length bound for the
induction. -/
lemma replaceSplitAux {p r ys : Str} (hp : p ≠ [])
    (hys : ∀ k, k < p.length → 0 < k → ¬ (p.drop k <+: ys)) :
    ∀ n (xs : Str), xs.length ≤ n →
      pyReplace (xs ++ ys) p r = pyReplace xs p r ++ pyReplace ys p r := by
  intro n
  induction n with
  | zero =>
    intro xs hn
    obtain rfl : xs = [] := List.eq_nil_of_length_eq_zero (Nat.le_zero.mp hn)
    simp [pyReplace_nil]
  | succ n ih =>
    intro xs hn
    rcases xs with _ | ⟨c, cs⟩
    · simp [pyReplace_nil]
    · by_cases hm : p <+: c :: cs
      · have hmm : p <+: (c :: cs) ++ ys := hm.trans (List.prefix_append _ _)
        rw [List.cons_append] at hmm ⊢
        rw [pyReplace_pos hp hmm, pyReplace_pos hp hm, List.append_assoc]
        congr 1
        have hdrop : (c :: (cs ++ ys)).drop p.length = (c :: cs).drop p.length ++ ys := by
          rw [show (c :: (cs ++ ys)) = (c :: cs) ++ ys from rfl,
            List.drop_append_eq_append_drop,
            Nat.sub_eq_zero_of_le hm.length_le, List.drop_zero]
        rw [hdrop]
        apply ih
        have hp1 : 1 ≤ p.length := by
          rcases p with _ | _
          · exact absurd rfl hp
          · simp
        simp only [List.length_drop, List.length_cons]
        simp only [List.length_cons] at hn
        omega
      · have hmm : ¬ p <+: c :: (cs ++ ys) := by
          intro hcon
          rw [show (c :: (cs ++ ys)) = (c :: cs) ++ ys from rfl] at hcon
          rcases prefSplit.mp hcon with hcon | ⟨h1, h2⟩
          · exact hm hcon
          · by_cases hlen : p.length ≤ (c :: cs).length
            · obtain rfl : c :: cs = p := h1.eq_of_length_le hlen
              exact hm (List.prefix_refl _)
            · exact hys (c :: cs).length (Nat.lt_of_not_le hlen) (by simp) h2
        rw [List.cons_append, pyReplace_neg hp hmm, pyReplace_neg hp hm,
          List.cons_append]
        congr 1
        exact ih cs (Nat.le_of_succ_le_succ hn)

/-- Replacement distributes over an append when no non-trivial tail of the
pattern is a prefix of the right part (so no match can cross the boundary). -/
lemma replaceSplit {p r ys : Str} (hp : p ≠ [])
    (hys : ∀ k, k < p.length → 0 < k → ¬ (p.drop k <+: ys)) (xs : Str) :
    pyReplace (xs ++ ys) p r = pyReplace xs p r ++ pyReplace ys p r :=
  replaceSplitAux hp hys xs.length xs (le_refl _)

/-! ### Occurrence-preservation conditions

The following decidable side conditions relate a pattern being replaced to
another string being tracked.  They are all verified by `decide` at the
concrete `SUBMIT_REPLACEMENTS` instances. -/

/-- No non-trivial tail of `q` lines up with the head of the replacement
text `r` (neither as its prefix nor with `r` as a prefix of it). -/
def noMid (q r : Str) : Prop :=
  ∀ j, j < q.length → 0 < j → ¬ (q.drop j <+: r) ∧ ¬ (r <+: q.drop j)

/-- The replacement text `r` cannot seed an occurrence of `q`: `q` is not
inside `r`, and no non-trivial head of `q` is a suffix of `r`. -/
def noSeed (q r : Str) : Prop :=
  ¬ (q <:+: r) ∧ ∀ k, k < q.length → 0 < k → ¬ (q.take k <:+ r)

/-- A match of `p` can never overlap an occurrence of `q` at a different or
equal position: the two words disagree at every relative alignment. -/
def noOverlap (p q : Str) : Prop :=
  (¬ (p <+: q) ∧ ¬ (q <+: p)) ∧
  (∀ d, d < q.length → 0 < d → ¬ (p <+: q.drop d) ∧ ¬ (q.drop d <+: p)) ∧
  (∀ d, d < p.length → 0 < d → ¬ (q <+: p.drop d) ∧ ¬ (p.drop d <+: q))

instance (q r : Str) : Decidable (noMid q r) := by
  unfold noMid
  exact inferInstance

instance (q r : Str) : Decidable (noSeed q r) := by
  unfold noSeed
  exact inferInstance

instance (p q : Str) : Decidable (noOverlap p q) := by
  unfold noOverlap
  exact inferInstance

/-- Transfer lemma: a non-trivial tail of `q` that is a prefix of the
replaced string was already a prefix of the original string (the `noMid`
condition forbids it from lining up with an inserted replacement). -/
lemma dropTailTransfer {p r q : Str} (hp : p ≠ []) (hm : noMid q r) :
    ∀ n (s : Str), s.length ≤ n → ∀ j, 1 ≤ j →
      q.drop j <+: pyReplace s p r → q.drop j <+: s := by
  intro n
  induction n with
  | zero =>
    intro s hn j hj h
    obtain rfl : s = [] := List.eq_nil_of_length_eq_zero (Nat.le_zero.mp hn)
    rw [pyReplace_nil] at h
    rw [List.prefix_nil.mp h]
  | succ n ih =>
    intro s hn j hj h
    rcases s with _ | ⟨c, cs⟩
    · rw [pyReplace_nil] at h
      rw [List.prefix_nil.mp h]
    · by_cases hqnil : q.drop j = []
      · rw [hqnil]
        exact List.nil_prefix
      · obtain ⟨a, u, hd⟩ := List.exists_cons_of_ne_nil hqnil
        have hjlen : j < q.length := by
          by_contra hc
          rw [List.drop_eq_nil_of_le (Nat.le_of_not_lt hc)] at hd
          exact List.noConfusion hd
        by_cases hmatch : p <+: c :: cs
        · rw [pyReplace_pos hp hmatch] at h
          rcases prefSplit.mp h with h | ⟨h1, _⟩
          · exact absurd h (hm j hjlen hj).1
          · exact absurd h1 (hm j hjlen hj).2
        · rw [pyReplace_neg hp hmatch, hd, List.cons_prefix_cons] at h
          obtain ⟨hac, hu⟩ := h
          have hu' : q.drop (j + 1) = u := by
            rw [← List.drop_drop, hd, List.drop_one, List.tail_cons]
          have hcs : q.drop (j + 1) <+: cs :=
            ih cs (Nat.le_of_succ_le_succ hn) (j + 1) (by omega) (by rw [hu']; exact hu)
          rw [hd, List.cons_prefix_cons]
          exact ⟨hac, by rw [← hu']; exact hcs⟩

/-- After replacing every occurrence of `p` by `r`, no occurrence of `p`
remains (the `noMid`/`noSeed` conditions forbid new occurrences from forming
around the inserted replacement text). -/
lemma replaceRemovesAux {p r : Str} (hp : p ≠ []) (hm : noMid p r) (hs : noSeed p r) :
    ∀ n (s : Str), s.length ≤ n → ¬ p <:+: pyReplace s p r := by
  intro n
  induction n with
  | zero =>
    intro s hn h
    obtain rfl : s = [] := List.eq_nil_of_length_eq_zero (Nat.le_zero.mp hn)
    rw [pyReplace_nil] at h
    have := h.length_le
    simp only [List.length_nil, Nat.le_zero, List.length_eq_zero] at this
    exact hp this
  | succ n ih =>
    intro s hn h
    rcases s with _ | ⟨c, cs⟩
    · rw [pyReplace_nil] at h
      have := h.length_le
      simp only [List.length_nil, Nat.le_zero, List.length_eq_zero] at this
      exact hp this
    · have hp1 : 1 ≤ p.length := by
        rcases p with _ | _
        · exact absurd rfl hp
        · simp
      by_cases hmatch : p <+: c :: cs
      · rw [pyReplace_pos hp hmatch] at h
        rcases infApp h with h | h | ⟨k, hk0, hkp, h1, _⟩
        · exact hs.1 h
        · refine ih ((c :: cs).drop p.length) ?_ h
          simp only [List.length_drop, List.length_cons]
          simp only [List.length_cons] at hn
          omega
        · exact hs.2 k hkp hk0 h1
      · rw [pyReplace_neg hp hmatch] at h
        rcases infCons.mp h with hpre | hinf
        · rcases hq : p with _ | ⟨a, pt⟩
          · exact hp hq
          · rw [hq, List.cons_prefix_cons] at hpre
            obtain ⟨hac, hpt⟩ := hpre
            have hpt' : p.drop 1 <+: cs :=
              dropTailTransfer hp hm n cs (Nat.le_of_succ_le_succ hn) 1 (le_refl _)
                (by rw [hq, List.drop_one, List.tail_cons]; exact hpt)
            rw [hq, List.drop_one, List.tail_cons] at hpt'
            exact hmatch (by rw [hq, List.cons_prefix_cons]; exact ⟨hac, hpt'⟩)
        · exact ih cs (Nat.le_of_succ_le_succ hn) hinf

/-- Replacing occurrences of `p` cannot create an occurrence of an absent
word `q` (under the `noMid`/`noSeed` conditions relating `q` to the
replacement text). -/
lemma replaceKeepsAbsentAux {p r q : Str} (hp : p ≠ []) (hm : noMid q r) (hs : noSeed q r) :
    ∀ n (s : Str), s.length ≤ n → ¬ q <:+: s → ¬ q <:+: pyReplace s p r := by
  intro n
  induction n with
  | zero =>
    intro s hn habs h
    obtain rfl : s = [] := List.eq_nil_of_length_eq_zero (Nat.le_zero.mp hn)
    rw [pyReplace_nil] at h
    exact habs h
  | succ n ih =>
    intro s hn habs h
    rcases s with _ | ⟨c, cs⟩
    · rw [pyReplace_nil] at h
      exact habs h
    · have hp1 : 1 ≤ p.length := by
        rcases p with _ | _
        · exact absurd rfl hp
        · simp
      by_cases hmatch : p <+: c :: cs
      · rw [pyReplace_pos hp hmatch] at h
        have habs' : ¬ q <:+: (c :: cs).drop p.length := fun hc =>
          habs (hc.trans (List.drop_suffix _ _).isInfix)
        rcases infApp h with h | h | ⟨k, hk0, hkp, h1, _⟩
        · exact hs.1 h
        · refine ih ((c :: cs).drop p.length) ?_ habs' h
          simp only [List.length_drop, List.length_cons]
          simp only [List.length_cons] at hn
          omega
        · exact hs.2 k hkp hk0 h1
      · rw [pyReplace_neg hp hmatch] at h
        rcases infCons.mp h with hpre | hinf
        · rcases hq : q with _ | ⟨a, qt⟩
          · exact habs (hq ▸ List.nil_infix)
          · rw [hq, List.cons_prefix_cons] at hpre
            obtain ⟨hac, hqt⟩ := hpre
            have hqt' : q.drop 1 <+: cs :=
              dropTailTransfer hp hm n cs (Nat.le_of_succ_le_succ hn) 1 (le_refl _)
                (by rw [hq, List.drop_one, List.tail_cons]; exact hqt)
            rw [hq, List.drop_one, List.tail_cons] at hqt'
            refine habs ?_
            have hq2 : q <+: c :: cs := by
              rw [hq, List.cons_prefix_cons]
              exact ⟨hac, hqt'⟩
            exact hq2.isInfix
        · exact ih cs (Nat.le_of_succ_le_succ hn)
            (fun hc => habs (List.infix_cons hc)) hinf

/-- A prefix of the scanned string survives replacement as long as no match
of the pattern starts inside it. -/
lemma prefKeep {p r : Str} (hp : p ≠ []) :
    ∀ (u s : Str), u <+: s → (∀ d, d < u.length → ¬ p <+: s.drop d) →
      u <+: pyReplace s p r := by
  intro u
  induction u with
  | nil =>
    intro s _ _
    exact List.nil_prefix
  | cons a u ih =>
    intro s hpre hno
    rcases s with _ | ⟨c, cs⟩
    · exact absurd (List.prefix_nil.mp hpre) (by simp)
    · rw [List.cons_prefix_cons] at hpre
      obtain ⟨hac, hu⟩ := hpre
      have h0 : ¬ p <+: c :: cs := by
        have := hno 0 (by simp)
        simpa using this
      rw [pyReplace_neg hp h0, List.cons_prefix_cons]
      refine ⟨hac, ih cs hu ?_⟩
      intro d hd
      have := hno (d + 1) (by simpa using Nat.succ_lt_succ hd)
      simpa [List.drop_succ_cons] using this

/-- An occurrence of `q` survives the replacement of `p` by `r` when the two
words can never overlap (`noOverlap`): a match of `p` cannot start on or
inside the `q` occurrence, so its characters are left alone. -/
lemma replaceKeepsPresentAux {p r q : Str} (hp : p ≠ []) (hq : q ≠ [])
    (ho : noOverlap p q) :
    ∀ n (s : Str), s.length ≤ n → q <:+: s → q <:+: pyReplace s p r := by
  intro n
  induction n with
  | zero =>
    intro s hn hpres
    obtain rfl : s = [] := List.eq_nil_of_length_eq_zero (Nat.le_zero.mp hn)
    have := hpres.length_le
    simp only [List.length_nil, Nat.le_zero, List.length_eq_zero] at this
    exact absurd this hq
  | succ n ih =>
    intro s hn hpres
    rcases s with _ | ⟨c, cs⟩
    · have := hpres.length_le
      simp only [List.length_nil, Nat.le_zero, List.length_eq_zero] at this
      exact absurd this hq
    · have hp1 : 1 ≤ p.length := by
        rcases p with _ | _
        · exact absurd rfl hp
        · simp
      by_cases hmatch : p <+: c :: cs
      · obtain ⟨m, hqm⟩ := infDropEx hpres
        have hm : p.length ≤ m := by
          by_contra hc
          have hmp : m < p.length := Nat.lt_of_not_le hc
          rcases Nat.eq_zero_or_pos m with rfl | hm0
          · rw [List.drop_zero] at hqm
            rcases prefCompat hmatch hqm with h | h
            · exact ho.1.1 h
            · exact ho.1.2 h
          · have h1 : p.drop m <+: (c :: cs).drop m := prefDrop m hmatch
            rcases prefCompat h1 hqm with h | h
            · exact (ho.2.2 m hmp hm0).2 h
            · exact (ho.2.2 m hmp hm0).1 h
        have hqinf : q <:+: (c :: cs).drop p.length := by
          have hdd : (c :: cs).drop m = ((c :: cs).drop p.length).drop (m - p.length) := by
            rw [List.drop_drop]
            congr 1
            omega
          rw [hdd] at hqm
          exact hqm.isInfix.trans (List.drop_suffix _ _).isInfix
        rw [pyReplace_pos hp hmatch]
        have hrec : q <:+: pyReplace ((c :: cs).drop p.length) p r := by
          refine ih _ ?_ hqinf
          simp only [List.length_drop, List.length_cons]
          simp only [List.length_cons] at hn
          omega
        exact hrec.trans (List.suffix_append _ _).isInfix
      · rw [pyReplace_neg hp hmatch]
        rcases infCons.mp hpres with hpre | hinf
        · have hno : ∀ d, d < q.length → ¬ p <+: (c :: cs).drop d := by
            intro d hd hpd
            rcases Nat.eq_zero_or_pos d with rfl | hd0
            · exact hmatch (by simpa using hpd)
            · have h1 : q.drop d <+: (c :: cs).drop d := prefDrop d hpre
              rcases prefCompat hpd h1 with h | h
              · exact (ho.2.1 d hd hd0).1 h
              · exact (ho.2.1 d hd hd0).2 h
          have hkeep := prefKeep (r := r) hp q (c :: cs) hpre hno
          rw [pyReplace_neg hp hmatch] at hkeep
          exact hkeep.isInfix
        · exact List.infix_cons (ih cs (Nat.le_of_succ_le_succ hn) hinf)

/-- When the pattern occurs, the replacement text occurs in the output. -/
lemma replaceInsertsAux {p r : Str} (hp : p ≠ []) :
    ∀ n (s : Str), s.length ≤ n → p <:+: s → r <:+: pyReplace s p r := by
  intro n
  induction n with
  | zero =>
    intro s hn hocc
    obtain rfl : s = [] := List.eq_nil_of_length_eq_zero (Nat.le_zero.mp hn)
    have := hocc.length_le
    simp only [List.length_nil, Nat.le_zero, List.length_eq_zero] at this
    exact absurd this hp
  | succ n ih =>
    intro s hn hocc
    rcases s with _ | ⟨c, cs⟩
    · have := hocc.length_le
      simp only [List.length_nil, Nat.le_zero, List.length_eq_zero] at this
      exact absurd this hp
    · by_cases hmatch : p <+: c :: cs
      · rw [pyReplace_pos hp hmatch]
        exact (List.prefix_append r _).isInfix
      · rw [pyReplace_neg hp hmatch]
        rcases infCons.mp hocc with hpre | hinf
        · exact absurd hpre hmatch
        · exact List.infix_cons (ih cs (Nat.le_of_succ_le_succ hn) hinf)

/-- `replaceRemovesAux` without the explicit length bound. -/
lemma replaceRemoves {p r : Str} (hp : p ≠ []) (hm : noMid p r) (hs : noSeed p r)
    (s : Str) : ¬ p <:+: pyReplace s p r :=
  replaceRemovesAux hp hm hs s.length s (le_refl _)

/-- `replaceKeepsAbsentAux` without the explicit length bound. -/
lemma replaceKeepsAbsent {p r q : Str} (hp : p ≠ []) (hm : noMid q r) (hs : noSeed q r)
    {s : Str} (habs : ¬ q <:+: s) : ¬ q <:+: pyReplace s p r :=
  replaceKeepsAbsentAux hp hm hs s.length s (le_refl _) habs

/-- `replaceKeepsPresentAux` without the explicit length bound. -/
lemma replaceKeepsPresent {p r q : Str} (hp : p ≠ []) (hq : q ≠ []) (ho : noOverlap p q)
    {s : Str} (hpres : q <:+: s) : q <:+: pyReplace s p r :=
  replaceKeepsPresentAux hp hq ho s.length s (le_refl _) hpres

/-- `replaceInsertsAux` without the explicit length bound. -/
lemma replaceInserts {p r : Str} (hp : p ≠ []) {s : Str} (hocc : p <:+: s) :
    r <:+: pyReplace s p r :=
  replaceInsertsAux hp s.length s (le_refl _) hocc

/-- `containsSub` decides substring occurrence. -/
lemma containsSub_iff {s sub : Str} : containsSub s sub = true ↔ sub <:+: s := by
  induction s with
  | nil =>
    simp only [containsSub, List.isEmpty_iff, List.infix_nil]
  | cons c cs ih =>
    simp only [containsSub, Bool.or_eq_true, isPre_iff, ih, infCons]

/-- A word stays absent through a whole list of replacements when each
replacement text satisfies the `noMid`/`noSeed` conditions for it. -/
lemma chainAbsent {q : Str} :
    ∀ (ps : List (Str × Str)) (s : Str),
      (∀ pr ∈ ps, pr.1 ≠ [] ∧ noMid q pr.2 ∧ noSeed q pr.2) →
      ¬ q <:+: s →
      ¬ q <:+: ps.foldl (fun t kv => pyReplace t kv.1 kv.2) s := by
  intro ps
  induction ps with
  | nil =>
    intro s _ habs
    simpa using habs
  | cons pr ps ih =>
    intro s hc habs
    simp only [List.foldl_cons]
    refine ih _ (fun x hx => hc x (List.mem_cons_of_mem _ hx)) ?_
    have h0 := hc pr (List.mem_cons_self _ _)
    exact replaceKeepsAbsent h0.1 h0.2.1 h0.2.2 habs

/-- A word stays present through a whole list of replacements when each
pattern satisfies the `noOverlap` condition for it. -/
lemma chainPresent {q : Str} (hq : q ≠ []) :
    ∀ (ps : List (Str × Str)) (s : Str),
      (∀ pr ∈ ps, pr.1 ≠ [] ∧ noOverlap pr.1 q) →
      q <:+: s →
      q <:+: ps.foldl (fun t kv => pyReplace t kv.1 kv.2) s := by
  intro ps
  induction ps with
  | nil =>
    intro s _ hpres
    simpa using hpres
  | cons pr ps ih =>
    intro s hc hpres
    simp only [List.foldl_cons]
    refine ih _ (fun x hx => hc x (List.mem_cons_of_mem _ hx)) ?_
    have h0 := hc pr (List.mem_cons_self _ _)
    exact replaceKeepsPresent h0.1 hq h0.2 hpres

/-- A constant tail that every replacement leaves unchanged, and into which
no pattern tail can cross, distributes out of a fold of replacements. -/
lemma foldReplaceAppend {C : Str} :
    ∀ (ps : List (Str × Str)) (t : Str),
      (∀ pr ∈ ps, pr.1 ≠ [] ∧ pyReplace C pr.1 pr.2 = C ∧
        (∀ k, k < pr.1.length → 0 < k → ¬ (pr.1.drop k <+: C))) →
      ps.foldl (fun s kv => pyReplace s kv.1 kv.2) (t ++ C) =
        ps.foldl (fun s kv => pyReplace s kv.1 kv.2) t ++ C := by
  intro ps
  induction ps with
  | nil =>
    intro t _
    simp
  | cons pr ps ih =>
    intro t hc
    have h0 := hc pr (List.mem_cons_self _ _)
    simp only [List.foldl_cons]
    rw [replaceSplit h0.1 h0.2.2 t, h0.2.1]
    exact ih _ (fun x hx => hc x (List.mem_cons_of_mem _ hx))

/-! ### Dictionary lemmas -/

/-- Reading back the key just written. -/
lemma dictGet_set_self (d : Dict) (k v : Str) : dictGet (dictSet d k v) k = some v := by
  induction d with
  | nil => simp [dictGet, dictSet]
  | cons kv d ih =>
    by_cases h : kv.1 = k
    · simp [dictGet, dictSet, h]
    · simp [dictGet, dictSet, h, ih]

/-- Writing one key does not change another key's value. -/
lemma dictGet_set_other (d : Dict) {k k' : Str} (v : Str) (h : k' ≠ k) :
    dictGet (dictSet d k v) k' = dictGet d k' := by
  induction d with
  | nil =>
    simp only [dictSet, dictGet]
    rw [if_neg (fun hc => h hc.symm)]
  | cons kv d ih =>
    rcases kv with ⟨a, b⟩
    simp only [dictSet]
    by_cases h2 : a = k
    · subst h2
      simp only [if_pos rfl, dictGet]
      rw [if_neg (fun hc => h hc.symm), if_neg (fun hc => h hc.symm)]
    · simp only [h2, if_false, dictGet]
      by_cases h3 : a = k'
      · simp [h3]
      · simp [h3, ih]

/-- Overwriting a key twice keeps only the second value. -/
lemma dictSet_set (d : Dict) (k v w : Str) :
    dictSet (dictSet d k v) k w = dictSet d k w := by
  induction d with
  | nil => simp [dictSet]
  | cons kv d ih =>
    by_cases h : kv.1 = k
    · simp [dictSet, h]
    · simp [dictSet, h, ih]

/-- The keyword-replacement loop over the dictionary telescopes to the
string-level fold on the `TEMPLATE` value. -/
lemma foldDict (k : Str) :
    ∀ (ps : List (Str × Str)) (d : Dict) (x : Str),
      ps.foldl (fun r kv => dictSet r k (pyReplace ((dictGet r k).getD []) kv.1 kv.2))
          (dictSet d k x) =
        dictSet d k (ps.foldl (fun s kv => pyReplace s kv.1 kv.2) x) := by
  intro ps
  induction ps with
  | nil =>
    intro d x
    rfl
  | cons pr ps ih =>
    intro d x
    simp only [List.foldl_cons, dictGet_set_self, Option.getD_some, dictSet_set]
    exact ih d _

/-- Characterisation of a successful parse: when scanning produced a
dictionary whose `TEMPLATE` and `TABLE` entries are present and non-empty,
`parse_htcss_string` succeeds and rewrites only the `TEMPLATE` entry,
appending the optional universe line and the queue statement before applying
the keyword replacements. -/
lemma parseChar {text : Str} {d : Dict} {t tb : Str}
    (hscan : scanLines ((pySplit text).map (fun i => i ++ ['\n'])) initSt = .ok d)
    (ht : dictGet d TEMPLATEkey = some t) (ht0 : t ≠ [])
    (htb : dictGet d TABLEkey = some tb) (htb0 : tb ≠ []) :
    parse_htcss_string text =
      .ok (dictSet d TEMPLATEkey (applyReplacements
        (t ++ (if containsSub t CONTAINER_IMAGE then UNIVERSE_LINE ++ QUEUE_LINE
               else QUEUE_LINE)))) := by
  unfold parse_htcss_string
  simp only [hscan, ht, htb, Option.getD_some, if_neg (show ¬ (t = [] ∨ tb = []) from by
    rintro (h | h)
    · exact ht0 h
    · exact htb0 h)]
  by_cases hc : containsSub t CONTAINER_IMAGE
  · simp only [hc, if_true, dictGet_set_self, Option.getD_some, dictSet_set]
    rw [foldDict, List.append_assoc]
    rfl
  · simp only [hc, Bool.false_eq_true, if_false, ht, Option.getD_some]
    rw [foldDict]
    rfl

/-! ### Scanner lemmas -/

/-- A line that does not start with `%HTCSS` does not start with
`%HTCSS END` either. -/
lemma notEnd_of_notPat {l : Str} (h : ¬ PATTERN <+: l) :
    ENDPATTERN.isPrefixOf l = false := by
  rcases hb : ENDPATTERN.isPrefixOf l
  · rfl
  · have hple : PATTERN <+: ENDPATTERN := by decide
    exact absurd (hple.trans (isPre_iff.mp hb)) h

/-- Bool form of a failed `%HTCSS` test. -/
lemma notPat_bool {l : Str} (h : ¬ PATTERN <+: l) :
    PATTERN.isPrefixOf l = false := by
  rcases hb : PATTERN.isPrefixOf l
  · rfl
  · exact absurd (isPre_iff.mp hb) h

/-- Outside a block, a non-marker line is skipped. -/
lemma scanSkip {l : Str} (h : ¬ PATTERN <+: l) (rest : List Str) (d : Dict)
    (nm : Str) (c : List Str) :
    scanLines (l :: rest) ⟨d, false, nm, c⟩ = scanLines rest ⟨d, false, nm, c⟩ := by
  simp only [scanLines, notEnd_of_notPat h, notPat_bool h, Bool.false_eq_true, if_false]

/-- Inside a block, a non-marker line is accumulated. -/
lemma scanAccum {l : Str} (h : ¬ PATTERN <+: l) (rest : List Str) (d : Dict)
    (nm : Str) (c : List Str) :
    scanLines (l :: rest) ⟨d, true, nm, c⟩ =
      scanLines rest ⟨d, true, nm, c ++ [l]⟩ := by
  simp only [scanLines, notEnd_of_notPat h, notPat_bool h, Bool.false_eq_true, if_false,
    if_true]

/-- Inside a block, a whole run of non-marker lines is accumulated. -/
lemma scanAccumMany :
    ∀ (b : List Str), (∀ l ∈ b, ¬ PATTERN <+: l) →
      ∀ (rest : List Str) (d : Dict) (nm : Str) (c : List Str),
        scanLines (b ++ rest) ⟨d, true, nm, c⟩ =
          scanLines rest ⟨d, true, nm, c ++ b⟩ := by
  intro b
  induction b with
  | nil =>
    intro _ rest d nm c
    simp
  | cons l b ih =>
    intro hb rest d nm c
    rw [List.cons_append, scanAccum (hb l (List.mem_cons_self _ _))]
    rw [ih (fun x hx => hb x (List.mem_cons_of_mem _ hx))]
    simp

/-- A `%HTCSS` marker line seen outside a block opens the named block,
keeping the (empty, in all reachable states) accumulator. -/
lemma scanOpenClosed {l nm' : Str} (hpat : PATTERN <+: l) (hend : ¬ ENDPATTERN <+: l)
    (hw : (pyWords l)[1]? = some nm') (rest : List Str) (d : Dict) (nm : Str)
    (c : List Str) :
    scanLines (l :: rest) ⟨d, false, nm, c⟩ = scanLines rest ⟨d, true, nm', c⟩ := by
  have hendb : ENDPATTERN.isPrefixOf l = false := by
    rcases hb : ENDPATTERN.isPrefixOf l
    · rfl
    · exact absurd (isPre_iff.mp hb) hend
  simp only [scanLines, hendb, Bool.false_eq_true, if_false, isPre_iff.mpr hpat, if_true, hw]

/-- A `%HTCSS` marker line seen inside a block commits the open block and
opens the named block with a fresh accumulator. -/
lemma scanOpenInBlock {l nm' : Str} (hpat : PATTERN <+: l) (hend : ¬ ENDPATTERN <+: l)
    (hw : (pyWords l)[1]? = some nm') (rest : List Str) (d : Dict) (nm : Str)
    (c : List Str) :
    scanLines (l :: rest) ⟨d, true, nm, c⟩ =
      scanLines rest ⟨dictSet d nm (pyStrip c.flatten), true, nm', []⟩ := by
  have hendb : ENDPATTERN.isPrefixOf l = false := by
    rcases hb : ENDPATTERN.isPrefixOf l
    · rfl
    · exact absurd (isPre_iff.mp hb) hend
  simp only [scanLines, hendb, Bool.false_eq_true, if_false, isPre_iff.mpr hpat, if_true, hw]
  rfl

/-- An `%HTCSS END` line stops the scan, committing an open block. -/
lemma scanEnd {l : Str} (hend : ENDPATTERN <+: l) (rest : List Str) (st : ScanSt) :
    scanLines (l :: rest) st =
      .ok (if st.inBlock then commitBlock st else st.result) := by
  simp only [scanLines, isPre_iff.mpr hend, if_true]

/-- Everything after an `%HTCSS END` line is irrelevant to the scan. -/
lemma scanEndIrrel {e : Str} (hend : ENDPATTERN <+: e) :
    ∀ (ls rest1 rest2 : List Str) (st : ScanSt),
      scanLines (ls ++ e :: rest1) st = scanLines (ls ++ e :: rest2) st := by
  intro ls
  induction ls with
  | nil =>
    intro rest1 rest2 st
    rw [List.nil_append, List.nil_append, scanEnd hend, scanEnd hend]
  | cons l ls ih =>
    intro rest1 rest2 st
    rw [List.cons_append, List.cons_append]
    simp only [scanLines]
    rcases hb : ENDPATTERN.isPrefixOf l
    · simp only [Bool.false_eq_true, if_false]
      rcases hp : PATTERN.isPrefixOf l
      · simp only [Bool.false_eq_true, if_false]
        rcases st.inBlock
        · simp only [Bool.false_eq_true, if_false]
          exact ih rest1 rest2 st
        · simp only [if_true]
          exact ih rest1 rest2 _
      · simp only [if_true]
        rcases hw : (pyWords l)[1]? with _ | nm'
        · rfl
        · exact ih rest1 rest2 _
    · simp only [if_true]

/-- Scanning is insensitive to the stored value of the currently open block
key whenever the two starting dictionaries agree after any future overwrite
of that key (the open block is always committed before anything else is
written). -/
lemma scanOverwrite :
    ∀ (ls : List Str) (k : Str) (c : List Str) (d₁ d₂ : Dict),
      (∀ w, dictSet d₁ k w = dictSet d₂ k w) →
      scanLines ls ⟨d₁, true, k, c⟩ = scanLines ls ⟨d₂, true, k, c⟩ := by
  intro ls
  induction ls with
  | nil =>
    intro k c d₁ d₂ hd
    simp only [scanLines, if_true, commitBlock]
    rw [hd]
  | cons l ls ih =>
    intro k c d₁ d₂ hd
    simp only [scanLines]
    rcases hb : ENDPATTERN.isPrefixOf l
    · simp only [Bool.false_eq_true, if_false]
      rcases hp : PATTERN.isPrefixOf l
      · simp only [Bool.false_eq_true, if_false, if_true]
        exact ih k _ d₁ d₂ hd
      · simp only [if_true]
        rcases hw : (pyWords l)[1]? with _ | nm'
        · rfl
        · simp only [commitBlock]
          rw [hd]
    · simp only [if_true, commitBlock]
      rw [hd]

/-- Reaching a `%HTCSS` marker line with no second word raises `IndexError`,
whatever the state, provided no earlier line is a marker. -/
lemma scanBadLine {bad : Str} (hpat : PATTERN <+: bad) (hend : ¬ ENDPATTERN <+: bad)
    (hw : (pyWords bad)[1]? = none) :
    ∀ (pre : List Str), (∀ l ∈ pre, ¬ PATTERN <+: l) →
      ∀ (rest : List Str) (st : ScanSt),
        scanLines (pre ++ bad :: rest) st = .error .indexError := by
  intro pre
  induction pre with
  | nil =>
    intro _ rest st
    have hendb : ENDPATTERN.isPrefixOf bad = false := by
      rcases hb : ENDPATTERN.isPrefixOf bad
      · rfl
      · exact absurd (isPre_iff.mp hb) hend
    simp only [List.nil_append, scanLines, hendb, Bool.false_eq_true, if_false,
      isPre_iff.mpr hpat, if_true, hw]
  | cons l pre ih =>
    intro hpre rest st
    have hl := hpre l (List.mem_cons_self _ _)
    have ih' := ih (fun x hx => hpre x (List.mem_cons_of_mem _ hx)) rest
    rw [List.cons_append]
    rcases hst : st.inBlock
    · rw [show st = ⟨st.result, false, st.currentName, st.contents⟩ by
        cases st; simp_all]
      rw [scanSkip hl]
      exact ih' _
    · rw [show st = ⟨st.result, true, st.currentName, st.contents⟩ by
        cases st; simp_all]
      rw [scanAccum hl]
      exact ih' _

/-- The two append-constant instances of the keyword-replacement fold: the
queue statement alone is untouched by all replacements and no pattern tail
can cross into it. -/
lemma arAppendQueue (t : Str) :
    applyReplacements (t ++ QUEUE_LINE) = applyReplacements t ++ QUEUE_LINE := by
  unfold applyReplacements
  exact foldReplaceAppend SUBMIT_REPLACEMENTS t (by decide)

/-- As `arAppendQueue`, for the universe line followed by the queue
statement. -/
lemma arAppendUnivQueue (t : Str) :
    applyReplacements (t ++ (UNIVERSE_LINE ++ QUEUE_LINE)) =
      applyReplacements t ++ (UNIVERSE_LINE ++ QUEUE_LINE) := by
  unfold applyReplacements
  exact foldReplaceAppend SUBMIT_REPLACEMENTS t (by decide)

/-! ### Claim theorems -/

/-- C2: `parse_htcss_string` raises an error whose message is
"Missing template or table in submission file" if and only if, after
scanning the input into blocks, the `TEMPLATE` key or the `TABLE` key is
absent or has empty (all-whitespace, hence stripped-to-empty) content; when
both are present with non-empty content, no such error is raised. -/
theorem claim_C2 (text : Str) (d : Dict)
    (hscan : scanLines ((pySplit text).map (fun i => i ++ ['\n'])) initSt = .ok d) :
    parse_htcss_string text = .error (.exception MISSING_MSG) ↔
      ((dictGet d TEMPLATEkey).getD [] = [] ∨ (dictGet d TABLEkey).getD [] = []) := by
  unfold parse_htcss_string
  simp only [hscan]
  by_cases hcond : (dictGet d TEMPLATEkey).getD [] = [] ∨ (dictGet d TABLEkey).getD [] = []
  · simp [hcond]
  · simp [hcond]

/-- Witness for C2 at a concrete input missing its `TABLE` section. -/
theorem claim_C2_witness :
    (scanLines ((pySplit ("%HTCSS TEMPLATE\nexecutable = x").data).map
        (fun i => i ++ ['\n'])) initSt = .ok [(TEMPLATEkey, ("executable = x").data)]) ∧
    (parse_htcss_string ("%HTCSS TEMPLATE\nexecutable = x").data =
        .error (.exception MISSING_MSG) ↔
      ((dictGet [(TEMPLATEkey, ("executable = x").data)] TEMPLATEkey).getD [] = [] ∨
       (dictGet [(TEMPLATEkey, ("executable = x").data)] TABLEkey).getD [] = [])) :=
  ⟨by decide, claim_C2 _ _ (by decide)⟩

/-- C6: a line beginning with `%HTCSS END` commits the open block and stops
scanning: the parse result does not depend on anything after that line, even
if the trailing text contains further `%HTCSS` markers.  Stated as: two
texts that agree up to and including an `%HTCSS END` line parse
identically. -/
theorem claim_C6 (t1 t2 e : Str) (pre post1 post2 : List Str)
    (h1 : pySplit t1 = pre ++ e :: post1) (h2 : pySplit t2 = pre ++ e :: post2)
    (hend : ENDPATTERN <+: e) :
    parse_htcss_string t1 = parse_htcss_string t2 := by
  unfold parse_htcss_string
  simp only [h1, h2, List.map_append, List.map_cons]
  rw [scanEndIrrel (hend.trans (List.prefix_append e ['\n']))
    (pre.map (fun i => i ++ ['\n'])) (post1.map (fun i => i ++ ['\n']))
    (post2.map (fun i => i ++ ['\n'])) initSt]

/-- Witness for C6: trailing text after `%HTCSS END`, itself containing a
`%HTCSS` marker, does not change the parse. -/
theorem claim_C6_witness :
    parse_htcss_string
        ("%HTCSS TEMPLATE\nex = 1\n%HTCSS TABLE\nID\n%HTCSS END\n%HTCSS TEMPLATE\njunk").data =
      parse_htcss_string
        ("%HTCSS TEMPLATE\nex = 1\n%HTCSS TABLE\nID\n%HTCSS END").data :=
  claim_C6 _ _ ("%HTCSS END").data
    [("%HTCSS TEMPLATE").data, ("ex = 1").data, ("%HTCSS TABLE").data, ("ID").data]
    [("%HTCSS TEMPLATE").data, ("junk").data] []
    (by decide) (by decide) (by decide)

/-- C8: parsing a markup string directly and parsing a file whose content is
that string produce identical `TEMPLATE` and `TABLE` values — the file
loader reads the whole file and delegates to the same parse operation. -/
theorem claim_C8 (s : Str) (d₁ d₂ : Dict)
    (h₁ : parse_htcss_string s = .ok d₁) (h₂ : parse_htcss_file s = .ok d₂) :
    dictGet d₁ TEMPLATEkey = dictGet d₂ TEMPLATEkey ∧
      dictGet d₁ TABLEkey = dictGet d₂ TABLEkey := by
  unfold parse_htcss_file at h₂
  rw [h₁] at h₂
  injection h₂ with h
  subst h
  exact ⟨rfl, rfl⟩

/-- Witness for C8 at a concrete valid markup string. -/
theorem claim_C8_witness :
    dictGet [(TEMPLATEkey, ("e = 1\nqueue from TABLE _table.csv\n").data),
             (TABLEkey, ("ID").data)] TEMPLATEkey =
      dictGet [(TEMPLATEkey, ("e = 1\nqueue from TABLE _table.csv\n").data),
               (TABLEkey, ("ID").data)] TEMPLATEkey ∧
    dictGet [(TEMPLATEkey, ("e = 1\nqueue from TABLE _table.csv\n").data),
             (TABLEkey, ("ID").data)] TABLEkey =
      dictGet [(TEMPLATEkey, ("e = 1\nqueue from TABLE _table.csv\n").data),
               (TABLEkey, ("ID").data)] TABLEkey :=
  claim_C8 ("%HTCSS TEMPLATE\ne = 1\n%HTCSS TABLE\nID").data _ _ (by decide) (by decide)

/-- C10: a line that begins with `%HTCSS` but has no second
whitespace-separated token (for example a line that is exactly `%HTCSS`)
makes `parse_htcss_string` raise `IndexError` from indexing the split token
list — not the "Missing template or table" validation error — provided the
line is reached (no earlier line is a `%HTCSS` marker). -/
theorem claim_C10 (text : Str) (pre post : List Str)
    (hsplit : pySplit text = pre ++ ("%HTCSS").data :: post)
    (hpre : ∀ l ∈ pre, ¬ PATTERN <+: l) :
    parse_htcss_string text = .error .indexError := by
  unfold parse_htcss_string
  simp only [hsplit, List.map_append, List.map_cons]
  rw [scanBadLine (by decide) (by decide) (by decide) (pre.map (fun i => i ++ ['\n']))
    (by
      intro l hl
      obtain ⟨x, hx, rfl⟩ := List.mem_map.mp hl
      exact fun hc => hpre x hx ((prefNl (by decide)).mp hc))
    (post.map (fun i => i ++ ['\n'])) initSt]

/-- Witness for C10: the one-line input `%HTCSS`. -/
theorem claim_C10_witness :
    parse_htcss_string ("%HTCSS").data = .error .indexError :=
  claim_C10 _ [] [] (by decide) (by decide)

/-- C9: invoking the command-line entry point on a valid markup file with
the `--dryrun` flag never calls the scheduler's submit operation, exits
with code 0 (modelled as an `ok` result), writes `_table.csv` with the
`TABLE` content, writes `_exec.py` exactly when an `EXEC` section was
present, and prints the built submission description instead of submitting
it. -/
theorem claim_C9 (fileLines : List Str) (d : Dict)
    (hparse : parse_htcss_file fileLines.flatten = .ok d) :
    ∃ out, mainCli fileLines false false true = .ok out ∧
      out.submitCalled = false ∧
      out.tableWritten = some ((dictGet d TABLEkey).getD []) ∧
      out.execWritten = dictGet d EXECkey ∧
      out.tableRemoved = false ∧
      (dictGet d EXECkey = none → out.description = (dictGet d TEMPLATEkey).getD []) := by
  unfold mainCli
  simp only [Bool.false_eq_true, if_false, hparse]
  rcases hE : dictGet d EXECkey with _ | ex
  · exact ⟨_, rfl, rfl, rfl, rfl, rfl, fun _ => rfl⟩
  · refine ⟨_, rfl, rfl, rfl, rfl, rfl, ?_⟩
    intro hc
    exact Option.noConfusion hc

/-- Witness for C9 at a concrete valid markup file without an `EXEC`
section. -/
theorem claim_C9_witness :
    ∃ out, mainCli [("%HTCSS TEMPLATE\n").data, ("e = 1\n").data,
        ("%HTCSS TABLE\n").data, ("ID").data] false false true = .ok out ∧
      out.submitCalled = false ∧
      out.tableWritten = some ((dictGet
        [(TEMPLATEkey, ("e = 1\nqueue from TABLE _table.csv\n").data),
         (TABLEkey, ("ID").data)] TABLEkey).getD []) ∧
      out.execWritten = dictGet
        [(TEMPLATEkey, ("e = 1\nqueue from TABLE _table.csv\n").data),
         (TABLEkey, ("ID").data)] EXECkey ∧
      out.tableRemoved = false ∧
      (dictGet [(TEMPLATEkey, ("e = 1\nqueue from TABLE _table.csv\n").data),
         (TABLEkey, ("ID").data)] EXECkey = none →
        out.description = (dictGet
          [(TEMPLATEkey, ("e = 1\nqueue from TABLE _table.csv\n").data),
           (TABLEkey, ("ID").data)] TEMPLATEkey).getD []) :=
  claim_C9 _ _ (by decide)

/-- Parses of two texts coincide once their scans coincide. -/
lemma parseCongr {t1 t2 : Str}
    (h : scanLines ((pySplit t1).map (fun i => i ++ ['\n'])) initSt =
      scanLines ((pySplit t2).map (fun i => i ++ ['\n'])) initSt) :
    parse_htcss_string t1 = parse_htcss_string t2 := by
  unfold parse_htcss_string
  simp only [h]

/-- C7: when a markup text contains two `%HTCSS TEMPLATE` blocks in
sequence, the second block fully overwrites the first: the parse result is
identical to that of the same text with the first `TEMPLATE` block (marker
and body) removed, so nothing of the first block's content survives. -/
theorem claim_C7 (t1 t2 : Str) (b1 rest : List Str)
    (h1 : pySplit t1 = ("%HTCSS TEMPLATE").data :: b1 ++ ("%HTCSS TEMPLATE").data :: rest)
    (h2 : pySplit t2 = ("%HTCSS TEMPLATE").data :: rest)
    (hb : ∀ l ∈ b1, ¬ PATTERN <+: l) :
    parse_htcss_string t1 = parse_htcss_string t2 := by
  have hbm : ∀ l ∈ b1.map (fun i => i ++ ['\n']), ¬ PATTERN <+: l := by
    intro l hl
    obtain ⟨x, hx, rfl⟩ := List.mem_map.mp hl
    exact fun hc => hb x hx ((prefNl (by decide)).mp hc)
  apply parseCongr
  rw [h1, h2]
  generalize hm : ("%HTCSS TEMPLATE").data = m
  have hpat : PATTERN <+: m ++ ['\n'] := by rw [← hm]; decide
  have hend : ¬ ENDPATTERN <+: m ++ ['\n'] := by rw [← hm]; decide
  have hw : (pyWords (m ++ ['\n']))[1]? = some (("TEMPLATE").data) := by
    rw [← hm]; decide
  simp only [List.map_cons, List.map_append, List.cons_append]
  rw [show initSt = ⟨[], false, [], []⟩ from rfl]
  conv_lhs => rw [scanOpenClosed hpat hend hw, scanAccumMany _ hbm,
    scanOpenInBlock hpat hend hw]
  conv_rhs => rw [scanOpenClosed hpat hend hw]
  simp only [List.nil_append]
  exact scanOverwrite _ _ _ _ _ (fun w => dictSet_set [] _ _ w)

/-- Witness for C7: the first of two `TEMPLATE` blocks is discarded. -/
theorem claim_C7_witness :
    parse_htcss_string
        ("%HTCSS TEMPLATE\nold = 1\n%HTCSS TEMPLATE\nnew = 2\n%HTCSS TABLE\nID").data =
      parse_htcss_string ("%HTCSS TEMPLATE\nnew = 2\n%HTCSS TABLE\nID").data :=
  claim_C7 _ _ [("old = 1").data]
    [("new = 2").data, ("%HTCSS TABLE").data, ("ID").data]
    (by decide) (by decide) (by decide)

/-- C3: for any markup text consisting of one `TEMPLATE` block followed by
one `TABLE` block (both committing non-empty content), parsing succeeds and
the returned `TEMPLATE` text ends with the appended queue statement
`\nqueue from TABLE _table.csv\n`. -/
theorem claim_C3 (text : Str) (b1 b2 : List Str)
    (hsplit : pySplit text =
      ("%HTCSS TEMPLATE").data :: b1 ++ ("%HTCSS TABLE").data :: b2)
    (hb1 : ∀ l ∈ b1, ¬ PATTERN <+: l) (hb2 : ∀ l ∈ b2, ¬ PATTERN <+: l)
    (ht : pyStrip (b1.map (fun i => i ++ ['\n'])).flatten ≠ [])
    (htb : pyStrip (b2.map (fun i => i ++ ['\n'])).flatten ≠ []) :
    ∃ r tpl, parse_htcss_string text = .ok r ∧
      dictGet r TEMPLATEkey = some tpl ∧ QUEUE_LINE <:+ tpl := by
  have hbm1 : ∀ l ∈ b1.map (fun i => i ++ ['\n']), ¬ PATTERN <+: l := by
    intro l hl
    obtain ⟨x, hx, rfl⟩ := List.mem_map.mp hl
    exact fun hc => hb1 x hx ((prefNl (by decide)).mp hc)
  have hbm2 : ∀ l ∈ b2.map (fun i => i ++ ['\n']), ¬ PATTERN <+: l := by
    intro l hl
    obtain ⟨x, hx, rfl⟩ := List.mem_map.mp hl
    exact fun hc => hb2 x hx ((prefNl (by decide)).mp hc)
  have hscan : scanLines ((pySplit text).map (fun i => i ++ ['\n'])) initSt =
      .ok (dictSet
        (dictSet [] TEMPLATEkey (pyStrip (b1.map (fun i => i ++ ['\n'])).flatten))
        TABLEkey (pyStrip (b2.map (fun i => i ++ ['\n'])).flatten)) := by
    rw [hsplit]
    generalize hm1 : ("%HTCSS TEMPLATE").data = m1
    generalize hm2 : ("%HTCSS TABLE").data = m2
    have hp1 : PATTERN <+: m1 ++ ['\n'] := by rw [← hm1]; decide
    have he1 : ¬ ENDPATTERN <+: m1 ++ ['\n'] := by rw [← hm1]; decide
    have hw1 : (pyWords (m1 ++ ['\n']))[1]? = some TEMPLATEkey := by rw [← hm1]; decide
    have hp2 : PATTERN <+: m2 ++ ['\n'] := by rw [← hm2]; decide
    have he2 : ¬ ENDPATTERN <+: m2 ++ ['\n'] := by rw [← hm2]; decide
    have hw2 : (pyWords (m2 ++ ['\n']))[1]? = some TABLEkey := by rw [← hm2]; decide
    simp only [List.map_cons, List.map_append, List.cons_append]
    rw [show initSt = ⟨[], false, [], []⟩ from rfl]
    rw [scanOpenClosed hp1 he1 hw1, scanAccumMany _ hbm1,
      scanOpenInBlock hp2 he2 hw2,
      show (b2.map fun i => i ++ ['\n']) = (b2.map fun i => i ++ ['\n']) ++ []
        from (List.append_nil _).symm,
      scanAccumMany _ hbm2]
    simp [scanLines, commitBlock]
  have hgT : dictGet
      (dictSet (dictSet [] TEMPLATEkey (pyStrip (b1.map (fun i => i ++ ['\n'])).flatten))
        TABLEkey (pyStrip (b2.map (fun i => i ++ ['\n'])).flatten)) TEMPLATEkey =
      some (pyStrip (b1.map (fun i => i ++ ['\n'])).flatten) := by
    rw [dictGet_set_other _ _ (show TEMPLATEkey ≠ TABLEkey by decide), dictGet_set_self]
  have hgB : dictGet
      (dictSet (dictSet [] TEMPLATEkey (pyStrip (b1.map (fun i => i ++ ['\n'])).flatten))
        TABLEkey (pyStrip (b2.map (fun i => i ++ ['\n'])).flatten)) TABLEkey =
      some (pyStrip (b2.map (fun i => i ++ ['\n'])).flatten) := dictGet_set_self _ _ _
  refine ⟨_, _, parseChar hscan hgT ht hgB htb, dictGet_set_self _ _ _, ?_⟩
  rcases hc : containsSub (pyStrip (b1.map (fun i => i ++ ['\n'])).flatten) CONTAINER_IMAGE
  · simp only [hc, Bool.false_eq_true, if_false, arAppendQueue]
    exact List.suffix_append _ _
  · simp only [hc, if_true, arAppendUnivQueue]
    exact (List.suffix_append UNIVERSE_LINE QUEUE_LINE).trans (List.suffix_append _ _)

/-- Witness for C3 at a concrete two-block markup text. -/
theorem claim_C3_witness :
    ∃ r tpl, parse_htcss_string ("%HTCSS TEMPLATE\nexecutable = x\n%HTCSS TABLE\nID\n1").data =
        .ok r ∧ dictGet r TEMPLATEkey = some tpl ∧ QUEUE_LINE <:+ tpl :=
  claim_C3 _ [("executable = x").data] [("ID").data, ("1").data]
    (by decide) (by decide) (by decide) (by decide) (by decide)

/-- C4 counterexample: a markup text whose `TEMPLATE` body contains both
`container_image` and the literal text `universe = container` yields a
post-processed `TEMPLATE` containing the substring `universe = container`
twice, not exactly once, refuting the claim as stated. -/
theorem claim_C4_counterexample :
    containsSub (("universe = container\ncontainer_image = docker://x").data)
        CONTAINER_IMAGE = true ∧
    (match parse_htcss_string
        ("%HTCSS TEMPLATE\nuniverse = container\ncontainer_image = docker://x\n%HTCSS TABLE\nID").data with
      | .ok r => (dictGet r TEMPLATEkey).map
          (fun tpl => countOccur (("universe = container").data) tpl)
      | .error _ => none) = some 2 := by decide

/-- C4 (amended): when `container_image` occurs in the scanned `TEMPLATE`
body, `parse_htcss_string` appends exactly one `universe = container\n` line
— the final `TEMPLATE` is the keyword-rewritten body followed by
`universe = container\n` and then the queue statement (so the appended
occurrence sits before the queue statement); when `container_image` does not
occur, no universe line is appended.  The substring may occur further times
only if the rewritten body itself contains it. -/
theorem claim_C4_amended (text : Str) (d : Dict) (t tb : Str)
    (hscan : scanLines ((pySplit text).map (fun i => i ++ ['\n'])) initSt = .ok d)
    (ht : dictGet d TEMPLATEkey = some t) (ht0 : t ≠ [])
    (htb : dictGet d TABLEkey = some tb) (htb0 : tb ≠ []) :
    ∃ r, parse_htcss_string text = .ok r ∧
      dictGet r TEMPLATEkey = some (applyReplacements t ++
        (if containsSub t CONTAINER_IMAGE then UNIVERSE_LINE ++ QUEUE_LINE
         else QUEUE_LINE)) := by
  refine ⟨_, parseChar hscan ht ht0 htb htb0, ?_⟩
  rw [dictGet_set_self]
  rcases hc : containsSub t CONTAINER_IMAGE
  · simp only [hc, Bool.false_eq_true, if_false, arAppendQueue]
  · simp only [hc, if_true, arAppendUnivQueue]

/-- Witness for the amended C4 at a concrete container-using template. -/
theorem claim_C4_amended_witness :
    ∃ r, parse_htcss_string
        ("%HTCSS TEMPLATE\ncontainer_image = docker://x\n%HTCSS TABLE\nID").data = .ok r ∧
      dictGet r TEMPLATEkey = some (applyReplacements (("container_image = docker://x").data) ++
        (if containsSub (("container_image = docker://x").data) CONTAINER_IMAGE then
          UNIVERSE_LINE ++ QUEUE_LINE else QUEUE_LINE)) :=
  claim_C4_amended _ [(TEMPLATEkey, ("container_image = docker://x").data),
      (TABLEkey, ("ID").data)]
    (("container_image = docker://x").data) (("ID").data)
    (by decide) (by decide) (by decide) (by decide) (by decide)

/-- C1 counterexample: with the claim's `'# '`-prefixed markup (a space
after the `#`), `read_comments` strips exactly one leading `#`, leaving a
space before `%HTCSS`, so `parse_htcss_string` recognises no marker line and
raises the validation error instead of returning a document whose
`TEMPLATE`/`TABLE` contain the expected texts. -/
theorem claim_C1_counterexample :
    parse_htcss_string (read_comments
      [("# %HTCSS TEMPLATE\n").data, ("# executable = /bin/python\n").data,
       ("# %HTCSS TABLE\n").data, ("# JobID, Input\n").data,
       ("# 1, data1.txt\n").data]) = .error (.exception MISSING_MSG) := by decide

/-- C1 (amended): when the marker lines are written `#%HTCSS ...` with no
space between `#` and `%HTCSS` (content lines may keep the space, as in the
repository's sample script), running the comment extractor and then the
parser yields a document whose `TEMPLATE` contains
`executable = /bin/python` and whose `TABLE` contains `JobID, Input`. -/
theorem claim_C1_amended :
    (match parse_htcss_string (read_comments
        [("#%HTCSS TEMPLATE\n").data, ("# executable = /bin/python\n").data,
         ("#%HTCSS TABLE\n").data, ("# JobID, Input\n").data,
         ("# 1, data1.txt\n").data]) with
      | .ok r => some
          ((dictGet r TEMPLATEkey).map
            (fun t => containsSub t (("executable = /bin/python").data)),
           (dictGet r TABLEkey).map
            (fun t => containsSub t (("JobID, Input").data)))
      | .error _ => none) = some (some true, some true) := by decide

/-- For every Keyword Replacement Table entry, the capitalized key is absent
from the fully keyword-rewritten text: its own pass removes every
occurrence, and no other pass can recreate one. -/
lemma arKeyGone {k v : Str} (hkv : (k, v) ∈ SUBMIT_REPLACEMENTS) (s : Str) :
    ¬ k <:+: applyReplacements s := by
  unfold applyReplacements
  simp only [SUBMIT_REPLACEMENTS, List.mem_cons, List.not_mem_nil, or_false,
    Prod.mk.injEq] at hkv
  rcases hkv with ⟨rfl, rfl⟩ | ⟨rfl, rfl⟩ | ⟨rfl, rfl⟩ | ⟨rfl, rfl⟩ | ⟨rfl, rfl⟩
  · rw [show SUBMIT_REPLACEMENTS =
      [] ++ (("RequestDisk").data, ("request_disk").data) ::
        [(("RequestMemory").data, ("request_memory").data),
         (("RequestCpus").data, ("request_cpus").data),
         (("TransferInputFiles").data, ("transfer_input_files").data),
         (("TransferOutputFiles").data, ("transfer_output_files").data)] from rfl,
      List.foldl_append, List.foldl_cons]
    exact chainAbsent _ _ (by decide) (replaceRemoves (by decide) (by decide) (by decide) _)
  · rw [show SUBMIT_REPLACEMENTS =
      [(("RequestDisk").data, ("request_disk").data)] ++
        (("RequestMemory").data, ("request_memory").data) ::
        [(("RequestCpus").data, ("request_cpus").data),
         (("TransferInputFiles").data, ("transfer_input_files").data),
         (("TransferOutputFiles").data, ("transfer_output_files").data)] from rfl,
      List.foldl_append, List.foldl_cons]
    exact chainAbsent _ _ (by decide) (replaceRemoves (by decide) (by decide) (by decide) _)
  · rw [show SUBMIT_REPLACEMENTS =
      [(("RequestDisk").data, ("request_disk").data),
       (("RequestMemory").data, ("request_memory").data)] ++
        (("RequestCpus").data, ("request_cpus").data) ::
        [(("TransferInputFiles").data, ("transfer_input_files").data),
         (("TransferOutputFiles").data, ("transfer_output_files").data)] from rfl,
      List.foldl_append, List.foldl_cons]
    exact chainAbsent _ _ (by decide) (replaceRemoves (by decide) (by decide) (by decide) _)
  · rw [show SUBMIT_REPLACEMENTS =
      [(("RequestDisk").data, ("request_disk").data),
       (("RequestMemory").data, ("request_memory").data),
       (("RequestCpus").data, ("request_cpus").data)] ++
        (("TransferInputFiles").data, ("transfer_input_files").data) ::
        [(("TransferOutputFiles").data, ("transfer_output_files").data)] from rfl,
      List.foldl_append, List.foldl_cons]
    exact chainAbsent _ _ (by decide) (replaceRemoves (by decide) (by decide) (by decide) _)
  · rw [show SUBMIT_REPLACEMENTS =
      [(("RequestDisk").data, ("request_disk").data),
       (("RequestMemory").data, ("request_memory").data),
       (("RequestCpus").data, ("request_cpus").data),
       (("TransferInputFiles").data, ("transfer_input_files").data)] ++
        (("TransferOutputFiles").data, ("transfer_output_files").data) :: [] from rfl,
      List.foldl_append, List.foldl_cons]
    exact chainAbsent _ _ (by decide) (replaceRemoves (by decide) (by decide) (by decide) _)

/-- For every Keyword Replacement Table entry whose capitalized key occurs
in the text, the lowercase key occurs in the fully keyword-rewritten text:
the occurrence survives the earlier passes, its own pass inserts the
replacement, and later passes leave it intact. -/
lemma arRepAppears {k v : Str} (hkv : (k, v) ∈ SUBMIT_REPLACEMENTS) (s : Str)
    (hocc : k <:+: s) : v <:+: applyReplacements s := by
  unfold applyReplacements
  simp only [SUBMIT_REPLACEMENTS, List.mem_cons, List.not_mem_nil, or_false,
    Prod.mk.injEq] at hkv
  rcases hkv with ⟨rfl, rfl⟩ | ⟨rfl, rfl⟩ | ⟨rfl, rfl⟩ | ⟨rfl, rfl⟩ | ⟨rfl, rfl⟩
  · rw [show SUBMIT_REPLACEMENTS =
      [] ++ (("RequestDisk").data, ("request_disk").data) ::
        [(("RequestMemory").data, ("request_memory").data),
         (("RequestCpus").data, ("request_cpus").data),
         (("TransferInputFiles").data, ("transfer_input_files").data),
         (("TransferOutputFiles").data, ("transfer_output_files").data)] from rfl,
      List.foldl_append, List.foldl_cons]
    exact chainPresent (by decide) _ _ (by decide)
      (replaceInserts (by decide) (chainPresent (by decide) _ _ (by decide) hocc))
  · rw [show SUBMIT_REPLACEMENTS =
      [(("RequestDisk").data, ("request_disk").data)] ++
        (("RequestMemory").data, ("request_memory").data) ::
        [(("RequestCpus").data, ("request_cpus").data),
         (("TransferInputFiles").data, ("transfer_input_files").data),
         (("TransferOutputFiles").data, ("transfer_output_files").data)] from rfl,
      List.foldl_append, List.foldl_cons]
    exact chainPresent (by decide) _ _ (by decide)
      (replaceInserts (by decide) (chainPresent (by decide) _ _ (by decide) hocc))
  · rw [show SUBMIT_REPLACEMENTS =
      [(("RequestDisk").data, ("request_disk").data),
       (("RequestMemory").data, ("request_memory").data)] ++
        (("RequestCpus").data, ("request_cpus").data) ::
        [(("TransferInputFiles").data, ("transfer_input_files").data),
         (("TransferOutputFiles").data, ("transfer_output_files").data)] from rfl,
      List.foldl_append, List.foldl_cons]
    exact chainPresent (by decide) _ _ (by decide)
      (replaceInserts (by decide) (chainPresent (by decide) _ _ (by decide) hocc))
  · rw [show SUBMIT_REPLACEMENTS =
      [(("RequestDisk").data, ("request_disk").data),
       (("RequestMemory").data, ("request_memory").data),
       (("RequestCpus").data, ("request_cpus").data)] ++
        (("TransferInputFiles").data, ("transfer_input_files").data) ::
        [(("TransferOutputFiles").data, ("transfer_output_files").data)] from rfl,
      List.foldl_append, List.foldl_cons]
    exact chainPresent (by decide) _ _ (by decide)
      (replaceInserts (by decide) (chainPresent (by decide) _ _ (by decide) hocc))
  · rw [show SUBMIT_REPLACEMENTS =
      [(("RequestDisk").data, ("request_disk").data),
       (("RequestMemory").data, ("request_memory").data),
       (("RequestCpus").data, ("request_cpus").data),
       (("TransferInputFiles").data, ("transfer_input_files").data)] ++
        (("TransferOutputFiles").data, ("transfer_output_files").data) :: [] from rfl,
      List.foldl_append, List.foldl_cons]
    exact chainPresent (by decide) _ _ (by decide)
      (replaceInserts (by decide) (chainPresent (by decide) _ _ (by decide) hocc))

/-- C5: after validation and the two appends, each of the five Keyword
Replacement Table entries is applied as a blind literal substring
replacement over the entire `TEMPLATE` body: for every entry `(k, v)` the
capitalized key `k` no longer occurs in the final `TEMPLATE`, and whenever
`k` occurred in the scanned body the lowercase key `v` does occur; the
`TABLE` and `EXEC` values are not rewritten. -/
theorem claim_C5 (text : Str) (d : Dict) (t tb k v : Str)
    (hscan : scanLines ((pySplit text).map (fun i => i ++ ['\n'])) initSt = .ok d)
    (ht : dictGet d TEMPLATEkey = some t) (ht0 : t ≠ [])
    (htb : dictGet d TABLEkey = some tb) (htb0 : tb ≠ [])
    (hkv : (k, v) ∈ SUBMIT_REPLACEMENTS) :
    ∃ r tpl, parse_htcss_string text = .ok r ∧
      dictGet r TEMPLATEkey = some tpl ∧
      ¬ (k <:+: tpl) ∧
      (k <:+: t → v <:+: tpl) ∧
      dictGet r TABLEkey = some tb ∧
      dictGet r EXECkey = dictGet d EXECkey := by
  refine ⟨_, _, parseChar hscan ht ht0 htb htb0, dictGet_set_self _ _ _, ?_, ?_, ?_, ?_⟩
  · exact arKeyGone hkv _
  · intro hk
    exact arRepAppears hkv _ (hk.trans (List.prefix_append t _).isInfix)
  · rw [dictGet_set_other _ _ (show TABLEkey ≠ TEMPLATEkey by decide)]
    exact htb
  · rw [dictGet_set_other _ _ (show EXECkey ≠ TEMPLATEkey by decide)]

/-- Witness for C5 at a concrete template using `RequestCpus`. -/
theorem claim_C5_witness :
    ∃ r tpl, parse_htcss_string ("%HTCSS TEMPLATE\nRequestCpus = 4\n%HTCSS TABLE\nID").data =
        .ok r ∧
      dictGet r TEMPLATEkey = some tpl ∧
      ¬ (("RequestCpus").data <:+: tpl) ∧
      (("RequestCpus").data <:+: ("RequestCpus = 4").data →
        ("request_cpus").data <:+: tpl) ∧
      dictGet r TABLEkey = some (("ID").data) ∧
      dictGet r EXECkey = dictGet [(TEMPLATEkey, ("RequestCpus = 4").data),
        (TABLEkey, ("ID").data)] EXECkey :=
  claim_C5 _ [(TEMPLATEkey, ("RequestCpus = 4").data), (TABLEkey, ("ID").data)]
    (("RequestCpus = 4").data) (("ID").data) (("RequestCpus").data) (("request_cpus").data)
    (by decide) (by decide) (by decide) (by decide) (by decide) (by decide)
